import Mathlib

/-!
# Verification of the AlgPred 3.0 sequence pipeline (`algpred3.py`)

Shallow embedding of the core pipeline of `algpred3.py`: FASTA / plain-text
parsing, sequence cleaning, dipeptide-composition (DPC) feature extraction,
sliding-window generation, exhaustive point mutation, thresholding, and the
run-level control flow of `main`.

Modelling conventions:
* Python strings are `List Char`; a text file is a `List Char` of raw bytes
  or, for line-oriented functions, the `List (List Char)` of its lines with
  the trailing newline removed (every consumer in the source strips each
  line, so dropping the newline is observation-equivalent).
* Python `dict` (insertion-ordered) is an association list `List (key × ℚ)`.
* Python floats are modelled as exact rationals `ℚ`.
* Code that can raise (`KeyError` from `dpc[...] += 1`, `IndexError` from
  `line[1:].split()[0]`) returns `Option`, `none` being the exception.
-/

/-- `AA_LIST = list("ACDEFGHIKLMNPQRSTVWY")`. -/
def AA_LIST : List Char := "ACDEFGHIKLMNPQRSTVWY".toList

/-- Python `str.strip()`: remove leading and trailing whitespace. -/
def pyStrip (s : List Char) : List Char :=
  ((s.dropWhile Char.isWhitespace).reverse.dropWhile Char.isWhitespace).reverse

/-- Python `s.split()[0]`: the first whitespace-delimited token of `s`;
`none` models the `IndexError` raised when `s.split()` is empty. -/
def firstToken (s : List Char) : Option (List Char) :=
  match s.dropWhile Char.isWhitespace with
  | [] => none
  | c :: rest => some (c :: rest.takeWhile (fun d => ¬ d.isWhitespace))

/-- Split a character stream at every newline. -/
def splitLines : List Char → List (List Char)
  | [] => [[]]
  | c :: rest =>
    if c = '\n' then [] :: splitLines rest
    else
      match splitLines rest with
      | [] => [[c]]
      | l :: ls => (c :: l) :: ls

/-- Python file line iteration (`for line in f`), with each line's trailing
newline dropped: a trailing newline does not create a final empty line. -/
def fileLines (s : List Char) : List (List Char) :=
  if (splitLines s).getLast? = some [] then (splitLines s).dropLast
  else splitLines s

/-- `is_fasta_file`: the first line whose `strip()` is non-empty decides the
format; the `startswith(">")` test is on the raw (unstripped) line. -/
def is_fasta_file : List (List Char) → Bool
  | [] => false
  | line :: rest =>
    if pyStrip line = [] then is_fasta_file rest
    else
      match line with
      | '>' :: _ => true
      | _ => false

/-- State-passing loop of `read_fasta`: `header` (Python `None` or the token),
`seqAcc` (the `seq` list of stripped lines), `recs` (the accumulated
records), processed against the remaining lines.  `none` models the
`IndexError` from `line[1:].split()[0]` on a header line with no token. -/
def readFastaGo : Option (List Char) → List (List Char) →
    List (List Char × List Char) → List (List Char) →
    Option (List (List Char × List Char))
  | header, seqAcc, recs, [] =>
    match header with
    | some h => some (recs ++ [(h, seqAcc.flatten)])
    | none => some recs
  | header, seqAcc, recs, line :: rest =>
    if (pyStrip line).head? = some '>' then
      match firstToken (pyStrip line).tail with
      | none => none
      | some tok =>
        readFastaGo (some tok) []
          (match header with
           | some h => recs ++ [(h, seqAcc.flatten)]
           | none => recs) rest
    else readFastaGo header (seqAcc ++ [pyStrip line]) recs rest

/-- `read_fasta`, taking the file's lines. -/
def read_fasta (lines : List (List Char)) : Option (List (List Char × List Char)) :=
  readFastaGo none [] [] lines

/-- `write_fasta`: each record is written as `>{h}\n{s}\n`. -/
def write_fasta (records : List (List Char × List Char)) : List Char :=
  records.flatMap fun r => '>' :: r.1 ++ '\n' :: r.2 ++ ['\n']

/-- Plain-text branch of `clean_fasta`:
`[(f"seq{i+1}", line.strip()) for i, line in enumerate(f) if line.strip()]`.
Note `enumerate` runs over all lines, the blank-line filter comes after. -/
def plainTextRecords (lines : List (List Char)) : List (List Char × List Char) :=
  lines.enum.filterMap fun p =>
    if pyStrip p.2 = [] then none
    else some ("seq".toList ++ (Nat.repr (p.1 + 1)).toList, pyStrip p.2)

/-- `seq.upper().replace(" ", "")`: uppercase, then delete every space
character (only U+0020; other whitespace is untouched). -/
def normalizeSeq (seq : List Char) : List Char :=
  (seq.map Char.toUpper).filter (fun c => c ≠ ' ')

/-- `sorted(set(seq) - VALID_AAS)`: the distinct characters outside the
alphabet, in ascending order. -/
def badChars (s : List Char) : List Char :=
  List.insertionSort (· ≤ ·) (s.dedup.filter (fun c => c ∉ AA_LIST))

/-- Outcome of the per-record loop body of `clean_fasta`. -/
inductive CleanResult
  | kept (name seq : List Char)
  | removed (name : List Char) (report : List (List Char))
  deriving DecidableEq

/-- The `["<empty>"]` marker recorded for an empty normalized sequence. -/
def emptyMarker : List Char := "<empty>".toList

/-- One iteration of the validation loop of `clean_fasta`. -/
def cleanRecord (name seq : List Char) : CleanResult :=
  let s := normalizeSeq seq
  let bad := badChars s
  if bad ≠ [] ∨ s = [] then
    CleanResult.removed name (if bad ≠ [] then bad.map (fun c => [c]) else [emptyMarker])
  else
    CleanResult.kept name s

/-- The full validation loop: returns (`kept`, `removed`) in input order. -/
def cleanPartition : List (List Char × List Char) →
    List (List Char × List Char) × List (List Char × List (List Char))
  | [] => ([], [])
  | (name, seq) :: rest =>
    let (kept, removed) := cleanPartition rest
    match cleanRecord name seq with
    | CleanResult.kept n s => ((n, s) :: kept, removed)
    | CleanResult.removed n r => (kept, (n, r) :: removed)

/-- The dict key `f"DPC1_{a}{b}"`. -/
def dpcKey (a b : Char) : List Char := "DPC1_".toList ++ [a, b]

/-- Key order of the comprehension `{f"DPC1_{a}{b}": 0 for a in AA_LIST for b
in AA_LIST}`: outer loop `a`, inner loop `b`. -/
def dpcKeys : List (List Char) := AA_LIST.flatMap fun a => AA_LIST.map fun b => dpcKey a b

/-- The freshly initialized DPC dict, all values `0`. -/
def dpcInit : List (List Char × ℚ) := dpcKeys.map fun k => (k, 0)

/-- `dpc[key] += 1` on an insertion-ordered dict: add one to the first entry
with key `key`; `none` models the `KeyError` when `key` is absent. -/
def incKey : List (List Char × ℚ) → List Char → Option (List (List Char × ℚ))
  | [], _ => none
  | (k, v) :: rest, key =>
    if k = key then some ((k, v + 1) :: rest)
    else (incKey rest key).map (fun r => (k, v) :: r)

/-- `dpc_for_sequence`: count each adjacent pair, then divide every entry by
`total = len(seq) - 1`; if `total ≤ 0` the zero dict is returned untouched. -/
def dpc_for_sequence (seq : List Char) : Option (List (List Char × ℚ)) :=
  let total : Int := (seq.length : Int) - 1
  if total ≤ 0 then some dpcInit
  else
    match (seq.zip seq.tail).foldlM (fun d p => incKey d (dpcKey p.1 p.2)) dpcInit with
    | none => none
    | some d => some (d.map fun kv => (kv.1, kv.2 / (total : ℚ)))

/-- `(probs >= threshold).astype(int)` for one probability. -/
def predictPred (prob threshold : ℚ) : Nat :=
  if prob ≥ threshold then 1 else 0

/-- `"Allergen" if p else "Non-Allergen"` (Python int truthiness). -/
def predictionStatus (p : Nat) : List Char :=
  if p ≠ 0 then "Allergen".toList else "Non-Allergen".toList

/-- Python `range(0, stop, step)` for `step > 0`. -/
def pyRange (stop step : Nat) : List Nat :=
  (List.range ((stop + step - 1) / step)).map (· * step)

/-- One row of the sliding-window table. -/
structure Window where
  ParentSeq : List Char
  Start : Nat
  End : Nat
  Peptide : List Char
  deriving DecidableEq

/-- `sliding_windows(name, seq, win_len, step)`. -/
def sliding_windows (name seq : List Char) (win_len step : Nat) : List Window :=
  if seq.length < win_len then []
  else
    (pyRange (seq.length - win_len + 1) step).map fun i =>
      ⟨name, i + 1, i + win_len, (seq.drop i).take win_len⟩

/-- The mutant label `f"mut{i+1}{aa}>{m}"` (`i` 0-based as in the loop). -/
def mutantID (i : Nat) (aa m : Char) : List Char :=
  "mut".toList ++ (Nat.repr (i + 1)).toList ++ [aa, '>', m]

/-- The candidate list built by the loop in `run_des`: per input sequence the
`original` entry followed by, for each position and each differing alphabet
residue, the single-point mutant `seq[:i] + m + seq[i+1:]`. -/
def run_des_candidates (name seq : List Char) : List (List Char × List Char × List Char) :=
  (name, "original".toList, seq) ::
    seq.enum.flatMap fun p =>
      (AA_LIST.filter (fun m => m ≠ p.2)).map fun m =>
        (name, mutantID p.1 p.2 m, seq.take p.1 ++ m :: seq.drop (p.1 + 1))

/-- Job mode (`-j` argument). -/
inductive Job
  | pred
  | scan
  | des
  deriving DecidableEq

/-- File writes performed by the pipeline, identified by role.  `resultCsv`
is the final `df.to_csv(output)` of the selected job mode. -/
inductive FileWrite
  | logInit
  | logAppend
  | cleanedFasta
  | winFasta
  | mutantsFasta
  | dpcCsv
  | resultCsv
  deriving DecidableEq

/-- Either normal completion or `sys.exit` with (exit status, message).
`sys.exit(msg)` exits with status 1 after printing `msg`. -/
inductive RunResult
  | ok
  | exit (status : Nat) (msg : List Char)
  deriving DecidableEq

/-- Outcome of a run: the file writes in order, and how the run ended. -/
structure RunOutcome where
  writes : List FileWrite
  result : RunResult
  deriving DecidableEq

/-- `clean_fasta` at the record level: writes the rejection log when some
record is removed, then the cleaned FASTA when some record is kept; returns
the kept records (`none` models `return None`). -/
def clean_fasta (records : List (List Char × List Char)) :
    List FileWrite × Option (List (List Char × List Char)) :=
  if (cleanPartition records).1 = [] then
    ((if (cleanPartition records).2 = [] then [] else [FileWrite.logAppend]),
      none)
  else
    ((if (cleanPartition records).2 = [] then [] else [FileWrite.logAppend]) ++
      [FileWrite.cleanedFasta], some (cleanPartition records).1)

/-- Format dispatch at the top of `clean_fasta`; `none` is the uncaught
`IndexError` that `read_fasta` can raise. -/
def parseInput (lines : List (List Char)) : Option (List (List Char × List Char)) :=
  if is_fasta_file lines then read_fasta lines else some (plainTextRecords lines)

/-- `run_scan`, at the level of file writes and exit conditions; the cleaned
FASTA re-read is modelled by passing the kept records (justified by the
write/read round-trip), scoring and CSV contents are abstracted. -/
def run_scan (kept : List (List Char × List Char)) (length : Option Nat)
    (step : Nat) : List FileWrite × RunResult :=
  match length with
  | none => ([], RunResult.exit 1 "❌ Protein Scan mode requires --length".toList)
  | some W =>
    let windows := kept.flatMap fun r => sliding_windows r.1 r.2 W step
    if windows = [] then ([], RunResult.exit 1 "❌ No windows generated".toList)
    else
      match (windows.map Window.Peptide).mapM dpc_for_sequence with
      | none => ([FileWrite.winFasta], RunResult.exit 1 "KeyError".toList)
      | some _ => ([FileWrite.winFasta, FileWrite.dpcCsv, FileWrite.resultCsv], RunResult.ok)

/-- `run_pred`, at the level of file writes and exit conditions. -/
def run_pred (kept : List (List Char × List Char)) :
    List FileWrite × RunResult :=
  match (kept.map Prod.snd).mapM dpc_for_sequence with
  | none => ([], RunResult.exit 1 "KeyError".toList)
  | some _ => ([FileWrite.dpcCsv, FileWrite.resultCsv], RunResult.ok)

/-- `run_des`, at the level of file writes and exit conditions. -/
def run_des (kept : List (List Char × List Char)) :
    List FileWrite × RunResult :=
  let mutants := kept.flatMap fun r => run_des_candidates r.1 r.2
  match (mutants.map (fun c => c.2.2)).mapM dpc_for_sequence with
  | none => ([FileWrite.mutantsFasta], RunResult.exit 1 "KeyError".toList)
  | some _ =>
    ([FileWrite.mutantsFasta, FileWrite.dpcCsv, FileWrite.resultCsv], RunResult.ok)

/-- `main` after argument parsing: truncate the log, clean the input, load
the model, dispatch on the job mode. -/
def mainRun (lines : List (List Char)) (modelPresent : Bool) (job : Job)
    (length : Option Nat) (step : Nat) : RunOutcome :=
  match parseInput lines with
  | none => ⟨[FileWrite.logInit], RunResult.exit 1 "IndexError".toList⟩
  | some records =>
    match (clean_fasta records).2 with
    | none =>
      ⟨FileWrite.logInit :: (clean_fasta records).1,
        RunResult.exit 1 "❌ No valid sequences remain.".toList⟩
    | some kept =>
      if modelPresent = false then
        ⟨FileWrite.logInit :: (clean_fasta records).1,
          RunResult.exit 1 "❌ Model file missing: algpred3_model.sav".toList⟩
      else
        ⟨FileWrite.logInit :: (clean_fasta records).1 ++
            (match job with
             | Job.scan => run_scan kept length step
             | Job.pred => run_pred kept
             | Job.des => run_des kept).1,
          (match job with
           | Job.scan => run_scan kept length step
           | Job.pred => run_pred kept
           | Job.des => run_des kept).2⟩

/-- A line is harmless for `read_fasta`: either not a record marker, or a
marker carrying at least one whitespace-delimited token after `>`. -/
def headerOk (line : List Char) : Bool :=
  if (pyStrip line).head? = some '>' then (firstToken (pyStrip line).tail).isSome
  else true

/-- The pipeline's own records: nonempty whitespace-free id, alphabet-only
sequence. -/
def wfRecord (r : List Char × List Char) : Prop :=
  r.1 ≠ [] ∧ (∀ c ∈ r.1, c.isWhitespace = false) ∧ (∀ c ∈ r.2, c ∈ AA_LIST)

instance (r : List Char × List Char) : Decidable (wfRecord r) := by
  unfold wfRecord
  infer_instance

/-! ## General lemmas -/

theorem sum_map_add {α M : Type} [AddCommMonoid M] (l : List α) (f g : α → M) :
    (l.map fun x => f x + g x).sum = (l.map f).sum + (l.map g).sum := by
  induction l with
  | nil => simp
  | cons a l ih =>
    simp only [List.map_cons, List.sum_cons, ih]
    abel

theorem sum_map_div (l : List α) (f : α → ℚ) (c : ℚ) :
    (l.map fun x => f x / c).sum = (l.map f).sum / c := by
  induction l with
  | nil => simp
  | cons a l ih => simp [ih, add_div]

/-! ## C4: inclusive threshold -/

/-- C4: for every probability and threshold in `[0,1]`, the assigned label is
`Allergen` iff `probability ≥ threshold`; in particular equality gives the
positive label (the comparison `probs >= threshold` is inclusive). -/
theorem predict_threshold_inclusive (prob t : ℚ) (h0 : 0 ≤ prob) (h1 : prob ≤ 1)
    (h2 : 0 ≤ t) (h3 : t ≤ 1) :
    (predictionStatus (predictPred prob t) = "Allergen".toList ↔ prob ≥ t) ∧
    (prob = t → predictionStatus (predictPred prob t) = "Allergen".toList) := by
  have hne : "Non-Allergen".toList ≠ "Allergen".toList := by decide
  constructor
  · by_cases h : prob ≥ t
    · simp [predictPred, predictionStatus, h]
    · simp only [predictPred, if_neg h, predictionStatus]
      simp [hne, h]
  · intro he
    have h : prob ≥ t := le_of_eq he.symm
    simp [predictPred, predictionStatus, h]

/-- Witness for C4 at `prob = t = 1/2`. -/
theorem predict_threshold_inclusive_witness :
    ((0:ℚ) ≤ 1/2 ∧ (1:ℚ)/2 ≤ 1) ∧
    ((predictionStatus (predictPred (1/2) (1/2)) = "Allergen".toList ↔ (1:ℚ)/2 ≥ 1/2) ∧
     ((1:ℚ)/2 = 1/2 → predictionStatus (predictPred (1/2) (1/2)) = "Allergen".toList)) :=
  ⟨⟨by norm_num, by norm_num⟩,
    predict_threshold_inclusive (1/2) (1/2) (by norm_num) (by norm_num) (by norm_num)
      (by norm_num)⟩

/-! ## C2: sliding windows -/

/-- C2: with window length `W > 0` and step `S > 0`, `sliding_windows`
produces one candidate per start offset `j*S` with `j*S + W ≤ len`, in order,
with 1-based inclusive `Start`/`End` and the peptide the substring
`[i, i+W)`; the count is `(len - W) / S + 1` when `W ≤ len`, else `0`. -/
theorem sliding_windows_spec (name seq : List Char) (W S : Nat) (hW : 0 < W)
    (hS : 0 < S) :
    sliding_windows name seq W S =
      (List.range (if W ≤ seq.length then (seq.length - W) / S + 1 else 0)).map
        (fun j => ⟨name, j * S + 1, j * S + W, (seq.drop (j * S)).take W⟩) ∧
    (sliding_windows name seq W S).length =
      (if W ≤ seq.length then (seq.length - W) / S + 1 else 0) ∧
    ∀ w ∈ sliding_windows name seq W S,
      w.Start - 1 + W ≤ seq.length ∧ (w.Start - 1) % S = 0 ∧
      w.End = w.Start - 1 + W ∧ w.Peptide = (seq.drop (w.Start - 1)).take W ∧
      w.Peptide.length = W := by
  have hmain : sliding_windows name seq W S =
      (List.range (if W ≤ seq.length then (seq.length - W) / S + 1 else 0)).map
        (fun j => ⟨name, j * S + 1, j * S + W, (seq.drop (j * S)).take W⟩) := by
    unfold sliding_windows pyRange
    by_cases h : seq.length < W
    · rw [if_pos h, if_neg (by omega), List.range_zero, List.map_nil]
    · rw [if_neg h, if_pos (by omega)]
      have hn : (seq.length - W + 1 + S - 1) / S = (seq.length - W) / S + 1 := by
        have h1 : seq.length - W + 1 + S - 1 = seq.length - W + S := by omega
        rw [h1, Nat.add_div_right _ hS]
      rw [hn, List.map_map]
      rfl
  refine ⟨hmain, ?_, ?_⟩
  · rw [hmain, List.length_map, List.length_range]
  · intro w hw
    rw [hmain] at hw
    rcases List.mem_map.1 hw with ⟨j, hj, rfl⟩
    rw [List.mem_range] at hj
    by_cases h : W ≤ seq.length
    · rw [if_pos h] at hj
      have hj' : j ≤ (seq.length - W) / S := by omega
      have hb1 : j * S ≤ (seq.length - W) / S * S := Nat.mul_le_mul_right _ hj'
      have hb2 : (seq.length - W) / S * S ≤ seq.length - W := Nat.div_mul_le_self _ _
      have h3 : j * S + W ≤ seq.length := by omega
      refine ⟨?_, ?_, ?_, ?_, ?_⟩
      · show j * S + 1 - 1 + W ≤ seq.length
        omega
      · show (j * S + 1 - 1) % S = 0
        have : j * S + 1 - 1 = j * S := by omega
        rw [this, Nat.mul_mod_left]
      · show j * S + W = j * S + 1 - 1 + W
        omega
      · show (seq.drop (j * S)).take W = (seq.drop (j * S + 1 - 1)).take W
        have he : j * S + 1 - 1 = j * S := by omega
        rw [he]
      · show ((seq.drop (j * S)).take W).length = W
        rw [List.length_take, List.length_drop]
        omega
    · rw [if_neg h] at hj
      omega

/-- Witness for C2 on `seq = "ACDEFGHIKL"`, `W = 5`, `S = 5`. -/
theorem sliding_windows_spec_witness :
    (0 < 5 ∧ 0 < 5) ∧
    (sliding_windows ['A'] "ACDEFGHIKL".toList 5 5 =
      (List.range (if 5 ≤ "ACDEFGHIKL".toList.length
          then ("ACDEFGHIKL".toList.length - 5) / 5 + 1 else 0)).map
        (fun j => ⟨['A'], j * 5 + 1, j * 5 + 5, ("ACDEFGHIKL".toList.drop (j * 5)).take 5⟩) ∧
     (sliding_windows ['A'] "ACDEFGHIKL".toList 5 5).length =
      (if 5 ≤ "ACDEFGHIKL".toList.length
          then ("ACDEFGHIKL".toList.length - 5) / 5 + 1 else 0) ∧
     ∀ w ∈ sliding_windows ['A'] "ACDEFGHIKL".toList 5 5,
      w.Start - 1 + 5 ≤ "ACDEFGHIKL".toList.length ∧ (w.Start - 1) % 5 = 0 ∧
      w.End = w.Start - 1 + 5 ∧
      w.Peptide = ("ACDEFGHIKL".toList.drop (w.Start - 1)).take 5 ∧
      w.Peptide.length = 5) :=
  ⟨⟨by decide, by decide⟩,
    sliding_windows_spec ['A'] "ACDEFGHIKL".toList 5 5 (by decide) (by decide)⟩

/-! ## C3: exhaustive point mutation -/

theorem enumFrom_flatMap_eq {α : Type} (F : Nat × Char → List α) (d : Char) :
    ∀ (seq : List Char) (n : Nat),
      (seq.enumFrom n).flatMap F =
        (List.range seq.length).flatMap fun i => F (n + i, seq.getD i d)
  | [], n => by simp
  | a :: rest, n => by
    have h1 : (a :: rest).enumFrom n = (n, a) :: rest.enumFrom (n + 1) := rfl
    rw [h1, List.flatMap_cons, enumFrom_flatMap_eq F d rest (n + 1),
      List.length_cons, List.range_succ_eq_map, List.flatMap_cons,
      List.flatMap_map]
    simp only [Nat.add_zero, List.getD_cons_zero, List.getD_cons_succ]
    have h2 : (fun i => F (n + 1 + i, rest.getD i d)) =
        (fun i : Nat => F (n + i.succ, rest.getD i d)) := by
      funext i
      have h3 : n + 1 + i = n + i.succ := by omega
      rw [h3]
    rw [h2]

theorem snd_mem_of_mem_enumFrom {p : Nat × Char} :
    ∀ (seq : List Char) (n : Nat), p ∈ seq.enumFrom n → p.2 ∈ seq
  | [], _, h => by cases h
  | a :: rest, n, h => by
    have h1 : (a :: rest).enumFrom n = (n, a) :: rest.enumFrom (n + 1) := rfl
    rw [h1, List.mem_cons] at h
    rcases h with h | h
    · rw [h]
      exact List.mem_cons_self _ _
    · exact List.mem_cons_of_mem _ (snd_mem_of_mem_enumFrom rest (n + 1) h)

theorem filter_ne_length_eq : ∀ aa ∈ AA_LIST,
    (AA_LIST.filter (fun m => m ≠ aa)).length = 19 := by decide

/-- C3: on a valid sequence of length `L`, `run_des` builds `1 + 19·L`
candidates: the `original` first, then for each 0-based position `i` and
each alphabet residue `m ≠ seq[i]` one mutant with the residue at `i`
replaced and label `mut{i+1}{seq[i]}>{m}`. -/
theorem run_des_candidates_spec (name seq : List Char)
    (h : ∀ c ∈ seq, c ∈ AA_LIST) :
    (run_des_candidates name seq).length = 1 + 19 * seq.length ∧
    run_des_candidates name seq =
      (name, "original".toList, seq) ::
        (List.range seq.length).flatMap (fun i =>
          (AA_LIST.filter (fun m => m ≠ seq.getD i 'A')).map
            (fun m => (name, mutantID i (seq.getD i 'A') m,
              seq.take i ++ m :: seq.drop (i + 1)))) := by
  constructor
  · unfold run_des_candidates
    rw [List.length_cons, List.length_flatMap]
    have hmap : (seq.enum.map
        (List.length ∘ fun p => (AA_LIST.filter (fun m => m ≠ p.2)).map
          (fun m => (name, mutantID p.1 p.2 m,
            seq.take p.1 ++ m :: seq.drop (p.1 + 1))))) =
        seq.enum.map fun _ => 19 := by
      apply List.map_congr_left
      intro p hp
      have h2 : p.2 ∈ seq := snd_mem_of_mem_enumFrom seq 0 hp
      simp only [Function.comp_apply, List.length_map]
      exact filter_ne_length_eq p.2 (h p.2 h2)
    rw [hmap, List.map_const', List.sum_replicate, List.enum_length,
      smul_eq_mul]
    omega
  · unfold run_des_candidates
    rw [show seq.enum = seq.enumFrom 0 from rfl,
      enumFrom_flatMap_eq _ 'A' seq 0]
    simp only [Nat.zero_add]

/-- Witness for C3 on the sequence `AC`: 39 candidates. -/
theorem run_des_candidates_spec_witness :
    (∀ c ∈ "AC".toList, c ∈ AA_LIST) ∧
    ((run_des_candidates ['B'] "AC".toList).length = 1 + 19 * "AC".toList.length ∧
     run_des_candidates ['B'] "AC".toList =
       (['B'], "original".toList, "AC".toList) ::
         (List.range "AC".toList.length).flatMap (fun i =>
           (AA_LIST.filter (fun m => m ≠ "AC".toList.getD i 'A')).map
             (fun m => (['B'], mutantID i ("AC".toList.getD i 'A') m,
               "AC".toList.take i ++ m :: "AC".toList.drop (i + 1))))) :=
  ⟨by decide, run_des_candidates_spec ['B'] "AC".toList (by decide)⟩

/-! ## C5: plain-text ids -/

/-- C5 counterexample: with a blank middle line the ids are `seq1, seq3`, not
`seq1, seq2`: blank lines do consume an index. -/
theorem plainTextRecords_blank_gap :
    (plainTextRecords [['A'], [], ['C']]).map Prod.fst =
      ["seq1".toList, "seq3".toList] ∧
    ["seq1".toList, "seq3".toList] ≠ ["seq1".toList, "seq2".toList] := by
  constructor
  · decide
  · decide

theorem plainText_enumFrom_ids :
    ∀ (lines : List (List Char)) (n : Nat), (∀ line ∈ lines, pyStrip line ≠ []) →
      (lines.enumFrom n).filterMap (fun p =>
        if pyStrip p.2 = [] then none
        else some ("seq".toList ++ (Nat.repr (p.1 + 1)).toList, pyStrip p.2)) =
      (List.range lines.length).map
        (fun i => ("seq".toList ++ (Nat.repr (n + i + 1)).toList,
          pyStrip (lines.getD i [])))
  | [], n, _ => by simp
  | a :: rest, n, h => by
    have ha : pyStrip a ≠ [] := h a (List.mem_cons_self _ _)
    have h1 : (a :: rest).enumFrom n = (n, a) :: rest.enumFrom (n + 1) := rfl
    rw [h1, List.filterMap_cons]
    simp only [if_neg ha]
    rw [plainText_enumFrom_ids rest (n + 1) (fun l hl => h l (List.mem_cons_of_mem _ hl)),
      List.length_cons, List.range_succ_eq_map, List.map_cons, List.map_map]
    simp only [Nat.add_zero, List.getD_cons_zero, List.getD_cons_succ,
      Function.comp_def]
    have h2 : (fun i : Nat => ("seq".toList ++ (Nat.repr (n + 1 + i + 1)).toList,
        pyStrip (rest.getD i []))) =
        (fun i : Nat => ("seq".toList ++ (Nat.repr (n + i.succ + 1)).toList,
          pyStrip (rest.getD i []))) := by
      funext i
      have h3 : n + 1 + i + 1 = n + i.succ + 1 := by omega
      rw [h3]
    rw [h2]

/-- C5 amended: each non-blank line becomes one record whose id is
`seq{k}` with `k` the line's 1-based position among **all** lines (blank
lines consume an index, leaving gaps); when no line is blank the ids are
exactly `seq1..seqN` consecutively. -/
theorem plainTextRecords_ids (lines : List (List Char))
    (hmode : is_fasta_file lines = false) :
    plainTextRecords lines =
      (lines.enum.filter (fun p => pyStrip p.2 ≠ [])).map
        (fun p => ("seq".toList ++ (Nat.repr (p.1 + 1)).toList, pyStrip p.2)) ∧
    ((∀ line ∈ lines, pyStrip line ≠ []) →
      (plainTextRecords lines).map Prod.fst =
        (List.range lines.length).map
          (fun i => "seq".toList ++ (Nat.repr (i + 1)).toList) ∧
      (plainTextRecords lines).length = lines.length) := by
  constructor
  · unfold plainTextRecords
    generalize lines.enum = l
    induction l with
    | nil => rfl
    | cons p l ih =>
      rw [List.filterMap_cons, List.filter_cons]
      by_cases hp : pyStrip p.2 = []
      · have hd : (decide (pyStrip p.2 ≠ [])) = false := by simp [hp]
        rw [if_pos hp, hd]
        simpa using ih
      · have hd : (decide (pyStrip p.2 ≠ [])) = true := by simp [hp]
        rw [if_neg hp, hd, if_pos rfl, List.map_cons, ih]
  · intro hnb
    have hmain : plainTextRecords lines =
        (List.range lines.length).map
          (fun i => ("seq".toList ++ (Nat.repr (0 + i + 1)).toList,
            pyStrip (lines.getD i []))) := by
      unfold plainTextRecords
      rw [show lines.enum = lines.enumFrom 0 from rfl]
      exact plainText_enumFrom_ids lines 0 hnb
    constructor
    · rw [hmain, List.map_map]
      simp [Function.comp_def]
    · rw [hmain, List.length_map, List.length_range]

/-- Witness for C5 amended, on a two-line input with no blanks. -/
theorem plainTextRecords_ids_witness :
    (is_fasta_file [['A'], ['C']] = false) ∧
    (plainTextRecords [['A'], ['C']] =
      (([['A'], ['C']] : List (List Char)).enum.filter
          (fun p => pyStrip p.2 ≠ [])).map
        (fun p => ("seq".toList ++ (Nat.repr (p.1 + 1)).toList, pyStrip p.2)) ∧
     ((∀ line ∈ [['A'], ['C']], pyStrip line ≠ []) →
       (plainTextRecords [['A'], ['C']]).map Prod.fst =
         (List.range ([['A'], ['C']] : List (List Char)).length).map
           (fun i => "seq".toList ++ (Nat.repr (i + 1)).toList) ∧
       (plainTextRecords [['A'], ['C']]).length =
         ([['A'], ['C']] : List (List Char)).length)) :=
  ⟨by decide, plainTextRecords_ids [['A'], ['C']] (by decide)⟩

/-! ## C6: normalization and validation -/

theorem mem_badChars {c : Char} {s : List Char} :
    c ∈ badChars s ↔ c ∈ s ∧ c ∉ AA_LIST := by
  unfold badChars
  rw [(List.perm_insertionSort _ _).mem_iff, List.mem_filter, List.mem_dedup]
  simp

/-- C6 counterexample: `"AC\tDE"` contains internal whitespace (a tab), yet
is rejected — `replace(" ", "")` deletes only spaces, and the surviving tab
fails validation and is reported. -/
theorem cleanRecord_tab_rejected :
    cleanRecord ['x'] ['A', 'C', '\t', 'D', 'E'] =
      CleanResult.removed ['x'] [['\t']] := by decide

/-- C6 amended: normalization (uppercasing and removal of internal **space**
characters only) precedes validation, so lowercase letters and internal
spaces are accepted; any character left outside the alphabet after
normalization (digits, but also non-space whitespace such as tab) causes
rejection with exactly the distinct offending characters, sorted, reported;
an empty normalized sequence is rejected with the `<empty>` marker. -/
theorem cleanRecord_spec (name seq : List Char) :
    ((∀ c ∈ seq, c.toUpper ∈ AA_LIST ∨ c = ' ') → normalizeSeq seq ≠ [] →
      cleanRecord name seq = CleanResult.kept name (normalizeSeq seq)) ∧
    (normalizeSeq seq = [] →
      cleanRecord name seq = CleanResult.removed name [emptyMarker]) ∧
    ((∃ c ∈ normalizeSeq seq, c ∉ AA_LIST) →
      cleanRecord name seq =
        CleanResult.removed name
          ((badChars (normalizeSeq seq)).map (fun c => [c])) ∧
      (∀ c, c ∈ badChars (normalizeSeq seq) ↔
        c ∈ normalizeSeq seq ∧ c ∉ AA_LIST) ∧
      (badChars (normalizeSeq seq)).Nodup ∧
      List.Sorted (· ≤ ·) (badChars (normalizeSeq seq))) := by
  refine ⟨?_, ?_, ?_⟩
  · intro hval hne
    have hbad : badChars (normalizeSeq seq) = [] := by
      have hsub : ∀ c ∈ normalizeSeq seq, c ∈ AA_LIST := by
        intro c hc
        unfold normalizeSeq at hc
        rw [List.mem_filter] at hc
        obtain ⟨hc1, hc2⟩ := hc
        rcases List.mem_map.1 hc1 with ⟨c0, hc0, rfl⟩
        rcases hval c0 hc0 with h | h
        · exact h
        · subst h
          simp at hc2
      rw [List.eq_nil_iff_forall_not_mem]
      intro c hc
      rw [mem_badChars] at hc
      exact hc.2 (hsub c hc.1)
    unfold cleanRecord
    rw [if_neg]
    push_neg
    exact ⟨by simp [hbad], hne⟩
  · intro hs
    have hbad : badChars (normalizeSeq seq) = [] := by
      rw [hs]
      rfl
    unfold cleanRecord
    rw [if_pos (Or.inr hs), if_neg (by simp [hbad])]
  · intro hex
    have hbadne : badChars (normalizeSeq seq) ≠ [] := by
      rcases hex with ⟨c, hc1, hc2⟩
      exact List.ne_nil_of_mem (mem_badChars.2 ⟨hc1, hc2⟩)
    refine ⟨?_, fun c => mem_badChars, ?_, ?_⟩
    · unfold cleanRecord
      rw [if_pos (Or.inl hbadne), if_pos hbadne]
    · unfold badChars
      exact (List.perm_insertionSort _ _).nodup_iff.2
        ((List.nodup_dedup _).filter _)
    · exact List.sorted_insertionSort _ _

/-- Witness for C6 on a lowercase sequence with an internal space (kept),
an all-space sequence (empty marker) and a digit (rejected, digit
reported). -/
theorem cleanRecord_spec_witness :
    ((∀ c ∈ ['a', ' ', 'c'], c.toUpper ∈ AA_LIST ∨ c = ' ') →
      normalizeSeq ['a', ' ', 'c'] ≠ [] →
      cleanRecord ['x'] ['a', ' ', 'c'] =
        CleanResult.kept ['x'] (normalizeSeq ['a', ' ', 'c'])) ∧
    cleanRecord ['x'] ['a', ' ', 'c'] = CleanResult.kept ['x'] ['A', 'C'] ∧
    cleanRecord ['y'] [' '] = CleanResult.removed ['y'] [emptyMarker] ∧
    cleanRecord ['z'] ['A', '1'] = CleanResult.removed ['z'] [['1']] :=
  ⟨(cleanRecord_spec ['x'] ['a', ' ', 'c']).1, by decide, by decide, by decide⟩

/-! ## DPC dictionary lemmas (for C1 and C10) -/

theorem dpcKey_inj {a b a' b' : Char} : dpcKey a b = dpcKey a' b' ↔ a = a' ∧ b = b' := by
  unfold dpcKey
  simp

theorem nodup_AA_LIST : AA_LIST.Nodup := by decide

theorem nodup_dpcKeys : dpcKeys.Nodup := by
  unfold dpcKeys
  rw [List.nodup_flatMap]
  constructor
  · intro a _
    exact List.Nodup.map_on (fun x _ y _ hxy => (dpcKey_inj.1 hxy).2) nodup_AA_LIST
  · refine List.Pairwise.imp ?_ nodup_AA_LIST
    intro a a' hne
    simp only [Function.onFun]
    intro k hk hk'
    rcases List.mem_map.1 hk with ⟨b, _, rfl⟩
    rcases List.mem_map.1 hk' with ⟨b', _, he⟩
    exact hne (dpcKey_inj.1 he.symm).1

theorem dpcKey_mem_dpcKeys {a b : Char} (ha : a ∈ AA_LIST) (hb : b ∈ AA_LIST) :
    dpcKey a b ∈ dpcKeys := by
  unfold dpcKeys
  rw [List.mem_flatMap]
  exact ⟨a, ha, List.mem_map.2 ⟨b, hb, rfl⟩⟩

theorem map_fst_dpcInit : dpcInit.map Prod.fst = dpcKeys := by
  unfold dpcInit
  rw [List.map_map]
  simp [Function.comp_def]

theorem incKey_of_not_mem (key : List Char) :
    ∀ l : List (List Char × ℚ), key ∉ l.map Prod.fst → incKey l key = none := by
  intro l
  induction l with
  | nil => intro _; rfl
  | cons kv rest ih =>
    intro h
    rw [List.map_cons, List.mem_cons] at h
    push_neg at h
    obtain ⟨k, v⟩ := kv
    show incKey ((k, v) :: rest) key = none
    unfold incKey
    rw [if_neg (fun he => h.1 he.symm), ih h.2]
    rfl

theorem incKey_of_mem (key : List Char) :
    ∀ l : List (List Char × ℚ), (l.map Prod.fst).Nodup → key ∈ l.map Prod.fst →
      incKey l key =
        some (l.map fun kv => if kv.1 = key then (kv.1, kv.2 + 1) else kv) := by
  intro l
  induction l with
  | nil => intro _ hmem; cases hmem
  | cons kv rest ih =>
    intro hnd hmem
    obtain ⟨k, v⟩ := kv
    rw [List.map_cons, List.nodup_cons] at hnd
    rw [List.map_cons, List.mem_cons] at hmem
    show incKey ((k, v) :: rest) key = _
    unfold incKey
    by_cases hk : k = key
    · subst hk
      rw [if_pos rfl, List.map_cons]
      simp only [if_pos rfl]
      congr 2
      have hid : ∀ p ∈ rest, (if p.1 = k then (p.1, p.2 + 1) else p) = p := by
        intro p hp
        rw [if_neg]
        intro he
        apply hnd.1
        rw [← he]
        exact List.mem_map.2 ⟨p, hp, rfl⟩
      rw [List.map_congr_left hid, List.map_id']
    · rcases hmem with he | hmem
      · exact absurd he.symm hk
      rw [if_neg hk, ih hnd.2 hmem, List.map_cons, if_neg hk]
      rfl

theorem foldlM_incKey :
    ∀ (ps : List (List Char)) (l : List (List Char × ℚ)),
      (l.map Prod.fst).Nodup → (∀ k ∈ ps, k ∈ l.map Prod.fst) →
      ps.foldlM incKey l =
        some (l.map fun kv => (kv.1, kv.2 + (ps.count kv.1 : ℚ))) := by
  intro ps
  induction ps with
  | nil =>
    intro l _ _
    rw [List.foldlM_nil]
    simp
  | cons p ps ih =>
    intro l hnd hmem
    rw [List.foldlM_cons,
      incKey_of_mem p l hnd (hmem p (List.mem_cons_self _ _))]
    have hbind : ∀ (x : List (List Char × ℚ))
        (f : List (List Char × ℚ) → Option (List (List Char × ℚ))),
        some x >>= f = f x := fun _ _ => rfl
    rw [hbind]
    have hkeys : ((l.map fun kv => if kv.1 = p then (kv.1, kv.2 + 1) else kv).map
        Prod.fst) = l.map Prod.fst := by
      rw [List.map_map]
      apply List.map_congr_left
      intro kv _
      by_cases h : kv.1 = p <;> simp [h]
    rw [ih _ (by rw [hkeys]; exact hnd)
      (by rw [hkeys]; exact fun k hk => hmem k (List.mem_cons_of_mem _ hk))]
    congr 1
    rw [List.map_map]
    apply List.map_congr_left
    intro kv _
    simp only [Function.comp_def]
    by_cases h : kv.1 = p
    · rw [if_pos h]
      simp only
      rw [List.count_cons, if_pos (by simp [h] : (p == kv.1) = true)]
      push_cast
      ring_nf
    · rw [if_neg h]
      rw [List.count_cons,
        if_neg (by simp only [beq_iff_eq]; exact fun hh => h hh.symm)]
      rw [Nat.add_zero]

theorem foldlM_pairs_eq (ps : List (Char × Char)) :
    ∀ l : List (List Char × ℚ),
      ps.foldlM (fun d p => incKey d (dpcKey p.1 p.2)) l =
        (ps.map fun p => dpcKey p.1 p.2).foldlM incKey l := by
  induction ps with
  | nil => intro l; rfl
  | cons p ps ih =>
    intro l
    rw [List.map_cons, List.foldlM_cons, List.foldlM_cons]
    cases hi : incKey l (dpcKey p.1 p.2) with
    | none => rfl
    | some l' =>
      show ps.foldlM (fun d p => incKey d (dpcKey p.1 p.2)) l' = _
      exact ih l'

theorem sum_ite_eq_count (p : List Char) :
    ∀ keys : List (List Char),
      (keys.map fun k => if k = p then (1:ℚ) else 0).sum = (keys.count p : ℚ) := by
  intro keys
  induction keys with
  | nil => simp
  | cons k keys ih =>
    rw [List.map_cons, List.sum_cons, ih, List.count_cons]
    by_cases h : k = p
    · rw [if_pos h, if_pos (by simp [h])]
      push_cast
      ring
    · rw [if_neg h, if_neg (by simp only [beq_iff_eq]; exact h)]
      push_cast
      ring

theorem count_of_nodup_mem :
    ∀ keys : List (List Char), keys.Nodup → ∀ p : List Char, p ∈ keys →
      keys.count p = 1 := by
  intro keys
  induction keys with
  | nil => intro _ p hp; cases hp
  | cons k keys ih =>
    intro hnd p hp
    rw [List.nodup_cons] at hnd
    rw [List.count_cons]
    rcases List.mem_cons.1 hp with he | hp'
    · subst he
      rw [if_pos (by simp), List.count_eq_zero.2 hnd.1]
    · have hkp : ¬ (k == p) = true := by
        simp only [beq_iff_eq]
        intro he
        exact hnd.1 (he ▸ hp')
      rw [if_neg hkp, ih hnd.2 p hp']

theorem sum_counts_eq_length (keys : List (List Char)) (hnd : keys.Nodup) :
    ∀ ps : List (List Char), (∀ x ∈ ps, x ∈ keys) →
      (keys.map fun k => ((ps.count k : ℚ))).sum = ps.length := by
  intro ps
  induction ps with
  | nil => simp
  | cons p ps ih =>
    intro hmem
    have h1 : (keys.map fun k => (((p :: ps).count k : ℚ))) =
        keys.map fun k => ((ps.count k : ℚ) + if k = p then (1:ℚ) else 0) := by
      apply List.map_congr_left
      intro k _
      rw [List.count_cons]
      by_cases h : k = p
      · rw [if_pos (by simp [h]), if_pos h]
        push_cast
        ring
      · rw [if_neg (by simp only [beq_iff_eq]; exact fun hh => h hh.symm), if_neg h]
        push_cast
        ring
    rw [h1, sum_map_add, ih (fun x hx => hmem x (List.mem_cons_of_mem _ hx)),
      sum_ite_eq_count p keys,
      count_of_nodup_mem keys hnd p (hmem p (List.mem_cons_self _ _)),
      List.length_cons]
    push_cast
    ring

theorem dpc_zip_keys_mem (seq : List Char) (h : ∀ c ∈ seq, c ∈ AA_LIST) :
    ∀ k ∈ (seq.zip seq.tail).map fun p => dpcKey p.1 p.2, k ∈ dpcKeys := by
  intro k hk
  rcases List.mem_map.1 hk with ⟨p, hp, rfl⟩
  obtain ⟨h1, h2⟩ := List.of_mem_zip hp
  exact dpcKey_mem_dpcKeys (h _ h1) (h _ (List.mem_of_mem_tail h2))

theorem dpc_for_sequence_eq (seq : List Char) (h : ∀ c ∈ seq, c ∈ AA_LIST)
    (h2 : 2 ≤ seq.length) :
    dpc_for_sequence seq =
      some (dpcKeys.map fun k =>
        (k, ((((seq.zip seq.tail).map fun p => dpcKey p.1 p.2).count k : ℚ)) /
          ((seq.length : ℚ) - 1))) := by
  unfold dpc_for_sequence
  rw [if_neg (by omega), foldlM_pairs_eq,
    foldlM_incKey _ dpcInit (by rw [map_fst_dpcInit]; exact nodup_dpcKeys)
      (by rw [map_fst_dpcInit]; exact dpc_zip_keys_mem seq h)]
  show some _ = some _
  congr 1
  unfold dpcInit
  rw [List.map_map, List.map_map]
  apply List.map_congr_left
  intro k _
  simp only [Function.comp_def, zero_add]
  congr 1
  push_cast
  ring

set_option maxRecDepth 40000 in
theorem dpcKeys_length : dpcKeys.length = 400 := by decide

set_option maxRecDepth 40000 in
theorem AA_LIST_sorted : List.Sorted (· < ·) AA_LIST := by decide

theorem dpcInit_snd_zero : ∀ v ∈ dpcInit.map Prod.snd, v = 0 := by
  intro v hv
  unfold dpcInit at hv
  rw [List.map_map] at hv
  rcases List.mem_map.1 hv with ⟨k, _, rfl⟩
  rfl

/-- C1: on an alphabet-only sequence, `dpc_for_sequence` yields a dict of
exactly 400 keys in the fixed order given by the doubly-nested loop over the
sorted alphabet, every value in `[0,1]`; for `len ≥ 2` the values sum to
exactly `1` (hence within `1e-9` of `1.0`), and for `len < 2` every value is
`0` with no error. -/
theorem dpc_for_sequence_spec (seq : List Char) (h : ∀ c ∈ seq, c ∈ AA_LIST) :
    ∃ d, dpc_for_sequence seq = some d ∧
      d.map Prod.fst = dpcKeys ∧ d.length = 400 ∧
      List.Sorted (· < ·) AA_LIST ∧
      (∀ v ∈ d.map Prod.snd, 0 ≤ v ∧ v ≤ 1) ∧
      (2 ≤ seq.length →
        (d.map Prod.snd).sum = 1 ∧ |(d.map Prod.snd).sum - 1| ≤ 1 / 1000000000) ∧
      (seq.length < 2 → ∀ v ∈ d.map Prod.snd, v = 0) := by
  by_cases h2 : 2 ≤ seq.length
  · have hQ2 : (2:ℚ) ≤ (seq.length : ℚ) := by exact_mod_cast h2
    have hTpos : (0:ℚ) < (seq.length : ℚ) - 1 := by linarith
    have hlen1 : 1 ≤ seq.length := by omega
    have hcast : ((seq.length - 1 : ℕ) : ℚ) = (seq.length : ℚ) - 1 :=
      Nat.cast_sub hlen1
    have hps : (((seq.zip seq.tail).map fun p => dpcKey p.1 p.2).length) =
        seq.length - 1 := by
      rw [List.length_map, List.length_zip, List.length_tail]
      omega
    have hsum : ((dpcKeys.map fun k =>
        (k, ((((seq.zip seq.tail).map fun p => dpcKey p.1 p.2).count k : ℚ)) /
          ((seq.length : ℚ) - 1))).map Prod.snd).sum = 1 := by
      rw [List.map_map]
      simp only [Function.comp_def]
      rw [sum_map_div,
        sum_counts_eq_length dpcKeys nodup_dpcKeys _ (dpc_zip_keys_mem seq h),
        hps, hcast]
      exact div_self (by linarith)
    refine ⟨_, dpc_for_sequence_eq seq h h2, ?_, ?_, AA_LIST_sorted, ?_, ?_, ?_⟩
    · rw [List.map_map]
      simp [Function.comp_def]
    · rw [List.length_map, dpcKeys_length]
    · intro v hv
      rw [List.map_map] at hv
      rcases List.mem_map.1 hv with ⟨k, _, rfl⟩
      simp only [Function.comp_def]
      have hcle : (((seq.zip seq.tail).map fun p => dpcKey p.1 p.2).count k) ≤
          seq.length - 1 := by
        rw [← hps]
        exact List.count_le_length _ _
      have hcleQ : ((((seq.zip seq.tail).map fun p => dpcKey p.1 p.2).count k : ℕ) : ℚ) ≤
          (seq.length : ℚ) - 1 := by
        rw [← hcast]
        exact_mod_cast hcle
      constructor
      · positivity
      · rw [div_le_one hTpos]
        exact hcleQ
    · intro _
      refine ⟨hsum, ?_⟩
      rw [hsum]
      norm_num
    · intro hc
      omega
  · have he : dpc_for_sequence seq = some dpcInit := by
      unfold dpc_for_sequence
      rw [if_pos (by omega)]
    refine ⟨dpcInit, he, map_fst_dpcInit, ?_, AA_LIST_sorted, ?_, ?_, ?_⟩
    · unfold dpcInit
      rw [List.length_map, dpcKeys_length]
    · intro v hv
      have hv0 := dpcInit_snd_zero v hv
      rw [hv0]
      norm_num
    · intro hc
      omega
    · intro _
      exact dpcInit_snd_zero

/-- Witness for C1 on the sequence `AC`. -/
theorem dpc_for_sequence_spec_witness :
    (∀ c ∈ ['A', 'C'], c ∈ AA_LIST) ∧
    (∃ d, dpc_for_sequence ['A', 'C'] = some d ∧
      d.map Prod.fst = dpcKeys ∧ d.length = 400 ∧
      List.Sorted (· < ·) AA_LIST ∧
      (∀ v ∈ d.map Prod.snd, 0 ≤ v ∧ v ≤ 1) ∧
      (2 ≤ (['A', 'C'] : List Char).length →
        (d.map Prod.snd).sum = 1 ∧ |(d.map Prod.snd).sum - 1| ≤ 1 / 1000000000) ∧
      ((['A', 'C'] : List Char).length < 2 → ∀ v ∈ d.map Prod.snd, v = 0)) :=
  ⟨by decide, dpc_for_sequence_spec ['A', 'C'] (by decide)⟩

set_option maxRecDepth 40000 in
/-- C10: `dpc_for_sequence` is total on alphabet-only sequences, but raises
a `KeyError` (modelled as `none`) on the length-2 sequence `aC`, whose
lowercase first character is outside the alphabet. -/
theorem dpc_for_sequence_partial :
    (∀ seq : List Char, (∀ c ∈ seq, c ∈ AA_LIST) →
      (dpc_for_sequence seq).isSome) ∧
    dpc_for_sequence ['a', 'C'] = none := by
  constructor
  · intro seq h
    by_cases h2 : 2 ≤ seq.length
    · rw [dpc_for_sequence_eq seq h h2]
      rfl
    · unfold dpc_for_sequence
      rw [if_pos (by omega)]
      rfl
  · decide

/-- Witness for C10: the valid sequence `AC` encodes without error. -/
theorem dpc_for_sequence_partial_witness :
    (∀ c ∈ ['A', 'C'], c ∈ AA_LIST) ∧
    (dpc_for_sequence ['A', 'C']).isSome ∧ dpc_for_sequence ['a', 'C'] = none :=
  ⟨by decide, dpc_for_sequence_partial.1 ['A', 'C'] (by decide),
    dpc_for_sequence_partial.2⟩

/-! ## C9: read_fasta partiality -/

theorem readFastaGo_nil (header : Option (List Char)) (seqAcc : List (List Char))
    (recs : List (List Char × List Char)) :
    readFastaGo header seqAcc recs [] =
      match header with
      | some h => some (recs ++ [(h, seqAcc.flatten)])
      | none => some recs := by
  cases header <;> rfl

theorem readFastaGo_cons (header : Option (List Char)) (seqAcc : List (List Char))
    (recs : List (List Char × List Char)) (line : List Char)
    (rest : List (List Char)) :
    readFastaGo header seqAcc recs (line :: rest) =
      if (pyStrip line).head? = some '>' then
        match firstToken (pyStrip line).tail with
        | none => none
        | some tok =>
          readFastaGo (some tok) []
            (match header with
             | some h => recs ++ [(h, seqAcc.flatten)]
             | none => recs) rest
      else readFastaGo header (seqAcc ++ [pyStrip line]) recs rest := by
  rfl

theorem readFastaGo_total :
    ∀ (lines : List (List Char)) (header : Option (List Char))
      (seqAcc : List (List Char)) (recs : List (List Char × List Char)),
      (∀ line ∈ lines, headerOk line = true) →
      (readFastaGo header seqAcc recs lines).isSome := by
  intro lines
  induction lines with
  | nil =>
    intro header seqAcc recs _
    cases header <;> rfl
  | cons line rest ih =>
    intro header seqAcc recs h
    have h1 := h line (List.mem_cons_self _ _)
    unfold headerOk at h1
    rw [readFastaGo_cons]
    by_cases hc : (pyStrip line).head? = some '>'
    · rw [if_pos hc] at h1 ⊢
      cases hft : firstToken (pyStrip line).tail with
      | none => rw [hft] at h1; cases h1
      | some tok =>
        exact ih _ _ _ (fun l hl => h l (List.mem_cons_of_mem _ hl))
    · rw [if_neg hc]
      exact ih _ _ _ (fun l hl => h l (List.mem_cons_of_mem _ hl))

/-- C9: `read_fasta` raises (`none`) on a record-marker line with no
identifier token — a line that is exactly `>` or `>` followed only by
whitespace — and returns normally whenever every marker line carries at
least one token. -/
theorem read_fasta_partial :
    read_fasta [['>']] = none ∧
    read_fasta [['>', ' ']] = none ∧
    (∀ lines : List (List Char), (∀ line ∈ lines, headerOk line = true) →
      (read_fasta lines).isSome) := by
  refine ⟨by decide, by decide, ?_⟩
  intro lines h
  exact readFastaGo_total lines none [] [] h

/-- Witness for C9 on a well-formed two-line FASTA input. -/
theorem read_fasta_partial_witness :
    (∀ line ∈ [['>', 'A'], ['A', 'C']], headerOk line = true) ∧
    (read_fasta [['>', 'A'], ['A', 'C']]).isSome :=
  ⟨by decide, read_fasta_partial.2.2 [['>', 'A'], ['A', 'C']] (by decide)⟩

/-! ## C7: write/read round trip -/

theorem AA_not_ws : ∀ c ∈ AA_LIST, c.isWhitespace = false := by decide

theorem dropWhile_ws_eq_self {l : List Char}
    (h : ∀ c ∈ l, c.isWhitespace = false) :
    l.dropWhile Char.isWhitespace = l := by
  cases l with
  | nil => rfl
  | cons c t =>
    exact List.dropWhile_cons_of_neg
      (by rw [h c (List.mem_cons_self _ _)]; simp)

theorem pyStrip_no_ws {l : List Char}
    (h : ∀ c ∈ l, c.isWhitespace = false) : pyStrip l = l := by
  unfold pyStrip
  rw [dropWhile_ws_eq_self h,
    dropWhile_ws_eq_self (fun c hc => h c (List.mem_reverse.1 hc)),
    List.reverse_reverse]

theorem takeWhile_all {l : List Char} {p : Char → Bool}
    (h : ∀ c ∈ l, p c = true) : l.takeWhile p = l := by
  induction l with
  | nil => rfl
  | cons c t ih =>
    rw [List.takeWhile_cons_of_pos (h c (List.mem_cons_self _ _)),
      ih (fun d hd => h d (List.mem_cons_of_mem _ hd))]

theorem firstToken_no_ws {l : List Char} (hne : l ≠ [])
    (h : ∀ c ∈ l, c.isWhitespace = false) : firstToken l = some l := by
  cases l with
  | nil => exact absurd rfl hne
  | cons c t =>
    unfold firstToken
    rw [dropWhile_ws_eq_self h]
    show some (c :: t.takeWhile _) = _
    rw [takeWhile_all (fun d hd => by
      rw [h d (List.mem_cons_of_mem _ hd)]
      simp)]

theorem splitLines_cons (c : Char) (rest : List Char) :
    splitLines (c :: rest) =
      if c = '\n' then [] :: splitLines rest
      else
        match splitLines rest with
        | [] => [[c]]
        | l :: ls => (c :: l) :: ls := rfl

theorem splitLines_append {xs : List Char} (hx : '\n' ∉ xs) (ys : List Char) :
    splitLines (xs ++ '\n' :: ys) = xs :: splitLines ys := by
  induction xs with
  | nil =>
    show splitLines ('\n' :: ys) = [] :: splitLines ys
    rw [splitLines_cons, if_pos rfl]
  | cons c xs ih =>
    have hc : ¬ (c = '\n') := fun he => hx (he ▸ List.mem_cons_self _ _)
    show splitLines (c :: (xs ++ '\n' :: ys)) = (c :: xs) :: splitLines ys
    rw [splitLines_cons, if_neg hc,
      ih (fun hm => hx (List.mem_cons_of_mem _ hm))]

theorem splitLines_write (records : List (List Char × List Char))
    (h : ∀ r ∈ records, wfRecord r) :
    splitLines (write_fasta records) =
      (records.flatMap fun r => ['>' :: r.1, r.2]) ++ [[]] := by
  induction records with
  | nil => rfl
  | cons r rest ih =>
    obtain ⟨hne, hh, hs⟩ := h r (List.mem_cons_self _ _)
    have hh' : '\n' ∉ ('>' :: r.1) := by
      intro hm
      rcases List.mem_cons.1 hm with he | hm'
      · exact absurd he (by decide)
      · have h1 := hh _ hm'
        simp at h1
    have hs' : '\n' ∉ r.2 := by
      intro hm
      have h1 : '\n' ∈ AA_LIST := hs _ hm
      exact absurd h1 (by decide)
    show splitLines ((('>' :: r.1) ++ ('\n' :: r.2)) ++ ['\n'] ++
      write_fasta rest) = _
    have hassoc : (((('>' :: r.1) ++ ('\n' :: r.2)) ++ ['\n']) ++
        write_fasta rest) =
        ('>' :: r.1) ++ '\n' :: (r.2 ++ '\n' :: write_fasta rest) := by
      simp [List.append_assoc, List.cons_append]
    rw [hassoc, splitLines_append hh', splitLines_append hs',
      ih (fun x hx => h x (List.mem_cons_of_mem _ hx))]
    simp [List.flatMap_cons, List.cons_append, List.append_assoc]

theorem fileLines_write (records : List (List Char × List Char))
    (h : ∀ r ∈ records, wfRecord r) :
    fileLines (write_fasta records) =
      records.flatMap fun r => ['>' :: r.1, r.2] := by
  unfold fileLines
  rw [splitLines_write records h, List.getLast?_concat, if_pos rfl,
    List.dropLast_concat]

theorem pyStrip_header (hid : List Char) (hh : ∀ c ∈ hid, c.isWhitespace = false) :
    pyStrip ('>' :: hid) = '>' :: hid := by
  apply pyStrip_no_ws
  intro c hc
  rcases List.mem_cons.1 hc with he | hm
  · rw [he]
    rfl
  · exact hh c hm

theorem pyStrip_seq (s : List Char) (hs : ∀ c ∈ s, c ∈ AA_LIST) :
    pyStrip s = s :=
  pyStrip_no_ws (fun c hc => AA_not_ws c (hs c hc))

theorem seq_head_ne_marker (s : List Char) (hs : ∀ c ∈ s, c ∈ AA_LIST) :
    ¬ s.head? = some '>' := by
  cases s with
  | nil => simp
  | cons c t =>
    intro he
    rw [List.head?_cons, Option.some_inj] at he
    have h1 : '>' ∈ AA_LIST := he ▸ hs c (List.mem_cons_self _ _)
    exact absurd h1 (by decide)

theorem readFastaGo_roundtrip :
    ∀ (records : List (List Char × List Char)),
      (∀ r ∈ records, wfRecord r) →
      ∀ (h0 : List Char) (sAcc : List (List Char))
        (recs : List (List Char × List Char)),
        readFastaGo (some h0) sAcc recs
            (records.flatMap fun r => ['>' :: r.1, r.2]) =
          some (recs ++ (h0, sAcc.flatten) :: records) := by
  intro records
  induction records with
  | nil =>
    intro _ h0 sAcc recs
    show readFastaGo (some h0) sAcc recs [] = _
    rw [readFastaGo_nil]
  | cons r rest ih =>
    intro hwf h0 sAcc recs
    obtain ⟨hne, hh, hs⟩ := hwf r (List.mem_cons_self _ _)
    show readFastaGo (some h0) sAcc recs
      (('>' :: r.1) :: r.2 :: (rest.flatMap fun x => ['>' :: x.1, x.2])) = _
    rw [readFastaGo_cons, pyStrip_header r.1 hh,
      if_pos (by rw [List.head?_cons])]
    rw [show ('>' :: r.1).tail = r.1 from rfl, firstToken_no_ws hne hh]
    show readFastaGo (some r.1) [] (recs ++ [(h0, sAcc.flatten)])
      (r.2 :: (rest.flatMap fun x => ['>' :: x.1, x.2])) = _
    rw [readFastaGo_cons, pyStrip_seq r.2 hs,
      if_neg (seq_head_ne_marker r.2 hs),
      ih (fun x hx => hwf x (List.mem_cons_of_mem _ hx))]
    simp

/-- C7 counterexample: an id containing a space is truncated to its first
token on re-parse, so the round trip is not the identity on arbitrary
records. -/
theorem write_read_not_id :
    read_fasta (fileLines (write_fasta [(['a', ' ', 'b'], ['A', 'C'])])) =
      some [(['a'], ['A', 'C'])] ∧
    some [(['a'], ['A', 'C'])] ≠
      some [((['a', ' ', 'b'] : List Char), (['A', 'C'] : List Char))] := by
  constructor
  · decide
  · decide

/-- C7 amended: for records with a nonempty, whitespace-free id and an
alphabet-only sequence — exactly the shape the pipeline itself writes —
`write_fasta` followed by `read_fasta` is the identity. -/
theorem write_read_roundtrip (records : List (List Char × List Char))
    (h : ∀ r ∈ records, wfRecord r) :
    read_fasta (fileLines (write_fasta records)) = some records := by
  rw [fileLines_write records h]
  cases records with
  | nil => rfl
  | cons r rest =>
    obtain ⟨hne, hh, hs⟩ := h r (List.mem_cons_self _ _)
    show readFastaGo none [] []
      (('>' :: r.1) :: r.2 :: (rest.flatMap fun x => ['>' :: x.1, x.2])) = _
    rw [readFastaGo_cons, pyStrip_header r.1 hh,
      if_pos (by rw [List.head?_cons])]
    rw [show ('>' :: r.1).tail = r.1 from rfl, firstToken_no_ws hne hh]
    show readFastaGo (some r.1) [] []
      (r.2 :: (rest.flatMap fun x => ['>' :: x.1, x.2])) = _
    rw [readFastaGo_cons, pyStrip_seq r.2 hs,
      if_neg (seq_head_ne_marker r.2 hs),
      readFastaGo_roundtrip rest (fun x hx => h x (List.mem_cons_of_mem _ hx))]
    simp

/-- Witness for C7 amended on one pipeline-shaped record. -/
theorem write_read_roundtrip_witness :
    (∀ r ∈ [((['i', 'd'] : List Char), (['A', 'C'] : List Char))], wfRecord r) ∧
    read_fasta (fileLines (write_fasta [(['i', 'd'], ['A', 'C'])])) =
      some [(['i', 'd'], ['A', 'C'])] :=
  ⟨by decide, write_read_roundtrip [(['i', 'd'], ['A', 'C'])] (by decide)⟩

/-! ## C8: empty-result fatal errors -/

theorem clean_fasta_none {records : List (List Char × List Char)}
    (h : (cleanPartition records).1 = []) :
    (clean_fasta records).2 = none := by
  unfold clean_fasta
  rw [if_pos h]

theorem clean_fasta_some {records : List (List Char × List Char)}
    (h : ¬ (cleanPartition records).1 = []) :
    (clean_fasta records).2 = some (cleanPartition records).1 := by
  unfold clean_fasta
  rw [if_neg h]

theorem clean_fasta_writes (records : List (List Char × List Char)) :
    FileWrite.resultCsv ∉ (clean_fasta records).1 := by
  unfold clean_fasta
  by_cases h : (cleanPartition records).1 = [] <;>
    by_cases h2 : (cleanPartition records).2 = [] <;>
      simp [h, h2]

/-- C8: each of the four empty-result conditions — no valid sequences after
filtering, missing classifier artifact, missing window length in scan mode,
zero windows generated in scan mode — ends the run in `sys.exit` with status
`1` and a descriptive message, and the final result CSV is never written. -/
theorem empty_result_fatal :
    (∀ (lines : List (List Char)) (mp : Bool) (job : Job) (len : Option Nat)
        (st : Nat) (records : List (List Char × List Char)),
      parseInput lines = some records → (cleanPartition records).1 = [] →
      (mainRun lines mp job len st).result =
        RunResult.exit 1 "❌ No valid sequences remain.".toList ∧
      FileWrite.resultCsv ∉ (mainRun lines mp job len st).writes) ∧
    (∀ (lines : List (List Char)) (job : Job) (len : Option Nat) (st : Nat)
        (records : List (List Char × List Char)),
      parseInput lines = some records → (cleanPartition records).1 ≠ [] →
      (mainRun lines false job len st).result =
        RunResult.exit 1 "❌ Model file missing: algpred3_model.sav".toList ∧
      FileWrite.resultCsv ∉ (mainRun lines false job len st).writes) ∧
    (∀ (lines : List (List Char)) (st : Nat)
        (records : List (List Char × List Char)),
      parseInput lines = some records → (cleanPartition records).1 ≠ [] →
      (mainRun lines true Job.scan none st).result =
        RunResult.exit 1 "❌ Protein Scan mode requires --length".toList ∧
      FileWrite.resultCsv ∉ (mainRun lines true Job.scan none st).writes) ∧
    (∀ (lines : List (List Char)) (st : Nat)
        (records : List (List Char × List Char)) (W : Nat),
      parseInput lines = some records → (cleanPartition records).1 ≠ [] →
      ((cleanPartition records).1.flatMap fun r =>
        sliding_windows r.1 r.2 W st) = [] →
      (mainRun lines true Job.scan (some W) st).result =
        RunResult.exit 1 "❌ No windows generated".toList ∧
      FileWrite.resultCsv ∉ (mainRun lines true Job.scan (some W) st).writes) := by
  refine ⟨?_, ?_, ?_, ?_⟩
  · intro lines mp job len st records hparse hkept
    have hm : mainRun lines mp job len st =
        ⟨FileWrite.logInit :: (clean_fasta records).1,
          RunResult.exit 1 "❌ No valid sequences remain.".toList⟩ := by
      simp only [mainRun, hparse, clean_fasta_none hkept]
    rw [hm]
    refine ⟨rfl, ?_⟩
    intro hmem
    rcases List.mem_cons.1 hmem with he | hm2
    · cases he
    · exact clean_fasta_writes records hm2
  · intro lines job len st records hparse hkept
    have hm : mainRun lines false job len st =
        ⟨FileWrite.logInit :: (clean_fasta records).1,
          RunResult.exit 1 "❌ Model file missing: algpred3_model.sav".toList⟩ := by
      simp only [mainRun, hparse, clean_fasta_some hkept, if_pos rfl]
      rw [if_pos trivial]
    rw [hm]
    refine ⟨rfl, ?_⟩
    intro hmem
    rcases List.mem_cons.1 hmem with he | hm2
    · cases he
    · exact clean_fasta_writes records hm2
  · intro lines st records hparse hkept
    have hm : mainRun lines true Job.scan none st =
        ⟨FileWrite.logInit :: (clean_fasta records).1 ++ [],
          RunResult.exit 1 "❌ Protein Scan mode requires --length".toList⟩ := by
      simp only [mainRun, hparse, clean_fasta_some hkept, run_scan]
      rfl
    rw [hm]
    refine ⟨rfl, ?_⟩
    intro hmem
    rw [List.append_nil] at hmem
    rcases List.mem_cons.1 hmem with he | hm2
    · cases he
    · exact clean_fasta_writes records hm2
  · intro lines st records W hparse hkept hwin
    have hm : mainRun lines true Job.scan (some W) st =
        ⟨FileWrite.logInit :: (clean_fasta records).1 ++ [],
          RunResult.exit 1 "❌ No windows generated".toList⟩ := by
      simp only [mainRun, hparse, clean_fasta_some hkept, run_scan]
      rw [if_pos hwin, if_neg (by simp)]
    rw [hm]
    refine ⟨rfl, ?_⟩
    intro hmem
    rw [List.append_nil] at hmem
    rcases List.mem_cons.1 hmem with he | hm2
    · cases he
    · exact clean_fasta_writes records hm2

/-- Witness for C8: the four conditions hit on concrete one-line inputs. -/
theorem empty_result_fatal_witness :
    ((mainRun [['1']] true Job.pred none 1).result =
        RunResult.exit 1 "❌ No valid sequences remain.".toList ∧
      FileWrite.resultCsv ∉ (mainRun [['1']] true Job.pred none 1).writes) ∧
    ((mainRun [['A']] false Job.pred none 1).result =
        RunResult.exit 1 "❌ Model file missing: algpred3_model.sav".toList ∧
      FileWrite.resultCsv ∉ (mainRun [['A']] false Job.pred none 1).writes) ∧
    ((mainRun [['A']] true Job.scan none 1).result =
        RunResult.exit 1 "❌ Protein Scan mode requires --length".toList ∧
      FileWrite.resultCsv ∉ (mainRun [['A']] true Job.scan none 1).writes) ∧
    ((mainRun [['A']] true Job.scan (some 5) 1).result =
        RunResult.exit 1 "❌ No windows generated".toList ∧
      FileWrite.resultCsv ∉ (mainRun [['A']] true Job.scan (some 5) 1).writes) :=
  ⟨empty_result_fatal.1 [['1']] true Job.pred none 1
      [("seq1".toList, ['1'])] (by decide) (by decide),
    empty_result_fatal.2.1 [['A']] Job.pred none 1
      [("seq1".toList, ['A'])] (by decide) (by decide),
    empty_result_fatal.2.2.1 [['A']] 1
      [("seq1".toList, ['A'])] (by decide) (by decide),
    empty_result_fatal.2.2.2 [['A']] 1
      [("seq1".toList, ['A'])] 5 (by decide) (by decide) (by decide)⟩
